import Mathlib

/-!
Verification of the xsimd batch/kernel core against its specification.

The C++ sources embedded here are:
* include/xsimd/types/xsimd_batch.hpp           (batch, batch_bool, complex batch)
* include/xsimd/types/xsimd_batch_constant.hpp  (batch_bool_constant, batch_constant)
* include/xsimd/types/xsimd_gather_utils.hpp    (stride_offset, first_n_true, allow_signed_conversion)
* include/xsimd/arch/xsimd_avx2.hpp             (the avx2 kernel set)

Machine integers are modelled as natural numbers holding the unsigned bit
pattern of a lane, with wraparound written explicitly as reduction modulo
2 ^ w; signed values are read off a pattern through toSigned below.
-/

namespace Xsimd

/-! ### Two's-complement helpers -/

/-- Signed value of a w-bit two's-complement pattern x (x < 2 ^ w). -/
def toSigned (w x : Nat) : Int :=
  if x < 2 ^ (w - 1) then (x : Int) else (x : Int) - 2 ^ w

/-- The w-bit pattern holding the signed value s; this is also the C++
conversion of an integer value to a w-bit unsigned type (reduction
modulo 2 ^ w). -/
def ofSigned (w : Nat) (s : Int) : Nat := (s % ((2 : Int) ^ w)).toNat

theorem ofSigned_toSigned (w x : Nat) (hx : x < 2 ^ w) :
    ofSigned w (toSigned w x) = x := by
  unfold ofSigned toSigned
  split
  · rw [Int.emod_eq_of_lt (by positivity) (by exact_mod_cast hx)]
    exact Int.toNat_natCast x
  · have h1 : ((x : Int) - 2 ^ w) % 2 ^ w = (x : Int) % 2 ^ w := by
      rw [Int.sub_emod, Int.emod_self, sub_zero, Int.emod_emod_of_dvd _ dvd_rfl]
    rw [h1, Int.emod_eq_of_lt (by positivity) (by exact_mod_cast hx)]
    exact Int.toNat_natCast x

theorem toSigned_of_lt (w x : Nat) (hx : x < 2 ^ (w - 1)) :
    toSigned w x = (x : Int) := by
  unfold toSigned
  simp [hx]

/-! ### batch_bool_constant (xsimd_batch_constant.hpp)

A batch_bool_constant over lanes Values... is modelled as the list of its
lane booleans. -/

/-- detail::get_at_index: extracts the i-th element of the non-empty
parameter pack (head, tail...); the single-element base case ignores i. -/
def get_at_index {α : Type} : Nat → α → List α → α
  | _, head, [] => head
  | i, head, t :: tail => if i = 0 then head else get_at_index (i - 1) t tail

/-- batch_bool_constant::get over the lane list. A batch_bool_constant always
has at least one lane (its size equals the batch size), so the empty case is
unreachable and returns false. -/
def bbc_get (values : List Bool) (i : Nat) : Bool :=
  match values with
  | [] => false
  | v :: vs => get_at_index i v vs

/-- batch_bool_constant::mask_helper: ors the accumulator with the first
mask and recurses with every remaining mask shifted left by one. -/
def mask_helper : Nat → List Nat → Nat
  | acc, [] => acc
  | acc, m :: masks => mask_helper (acc ||| m) (masks.map fun x => x <<< 1)
termination_by _ masks => masks.length
decreasing_by simp

/-- batch_bool_constant::mask: packs the lane booleans (cast to int, i.e.
0 or 1) into one integer. -/
def mask (values : List Bool) : Nat :=
  mask_helper 0 (values.map fun b => if b then 1 else 0)

/-- Structural characterization of the packing: head at bit 0, tail shifted
up by one. Not part of the source; used to reason about mask_helper. -/
def mask_core : List Nat → Nat
  | [] => 0
  | m :: ms => m ||| (mask_core ms <<< 1)

theorem shiftLeft_or_distrib (a b n : Nat) :
    (a ||| b) <<< n = (a <<< n) ||| (b <<< n) := by
  apply Nat.eq_of_testBit_eq
  intro i
  simp only [Nat.testBit_shiftLeft, Nat.testBit_or]
  cases Decidable.em (n ≤ i) with
  | inl h => simp [h]
  | inr h => simp [h]

theorem mask_core_map_shift (ms : List Nat) :
    mask_core (ms.map fun x => x <<< 1) = (mask_core ms) <<< 1 := by
  induction ms with
  | nil => simp [mask_core]
  | cons m ms ih =>
    simp only [List.map_cons, mask_core, ih, shiftLeft_or_distrib]

theorem mask_helper_eq (n : Nat) :
    ∀ ms : List Nat, ms.length = n → ∀ acc, mask_helper acc ms = acc ||| mask_core ms := by
  induction n with
  | zero =>
    intro ms hms acc
    match ms with
    | [] => simp [mask_helper, mask_core]
  | succ n ih =>
    intro ms hms acc
    match ms with
    | m :: rest =>
      rw [mask_helper, mask_core,
        ih (rest.map fun x => x <<< 1) (by simpa using Nat.succ.inj hms),
        mask_core_map_shift, Nat.or_assoc]

/-- Bit i of the packed core is lane i of the boolean list. -/
theorem mask_core_testBit (vs : List Bool) (i : Nat) :
    (mask_core (vs.map fun b => if b then 1 else 0)).testBit i = vs.getD i false := by
  induction vs generalizing i with
  | nil => simp [mask_core]
  | cons v vs ih =>
    cases i with
    | zero =>
      cases v <;>
        simp [mask_core, Nat.testBit_or, Nat.testBit_shiftLeft]
    | succ i =>
      have hv : (if v then 1 else 0 : Nat) < 2 ^ 1 := by cases v <;> simp
      have : (if v then 1 else 0 : Nat).testBit (i + 1) = false := by
        cases v <;> simp [Nat.testBit_lt_two_pow (by norm_num : (1:Nat) < 2 ^ (i+1))]
      simp [mask_core, Nat.testBit_or, Nat.testBit_shiftLeft, this, ih]

theorem mask_testBit (vs : List Bool) (i : Nat) :
    (mask vs).testBit i = vs.getD i false := by
  rw [mask, mask_helper_eq (vs.map fun b => if b then 1 else 0).length _ rfl 0,
    Nat.zero_or, mask_core_testBit]

/-- The packed core equals the sum of the lane-indexed powers of two. -/
theorem mask_core_sum (vs : List Bool) :
    mask_core (vs.map fun b => if b then 1 else 0)
      = ∑ j ∈ Finset.range vs.length, (if vs.getD j false then 2 ^ j else 0) := by
  induction vs with
  | nil => simp [mask_core]
  | cons v vs ih =>
    have hcore : mask_core ((v :: vs).map fun b => if b then 1 else 0)
        = (if v then 1 else 0) ||| (mask_core (vs.map fun b => if b then 1 else 0)) <<< 1 := rfl
    have hor : (if v then 1 else 0 : Nat) ||| (mask_core (vs.map fun b => if b then 1 else 0)) <<< 1
        = (if v then 1 else 0) + 2 * mask_core (vs.map fun b => if b then 1 else 0) := by
      rw [Nat.shiftLeft_eq, pow_one, Nat.or_comm, mul_comm]
      have hb : (if v then 1 else 0 : Nat) < 2 ^ 1 := by cases v <;> simp
      rw [← Nat.mul_add_lt_is_or hb, mul_comm]
      omega
    rw [hcore, hor, ih, List.length_cons, Finset.sum_range_succ', Finset.mul_sum]
    simp only [List.getD_cons_succ, List.getD_cons_zero, mul_ite, mul_zero,
      ← pow_succ', pow_zero]
    omega

theorem get_at_index_eq_getD (vs : List Bool) (v : Bool) (i : Nat)
    (h : i < (v :: vs).length) : get_at_index i v vs = (v :: vs).getD i false := by
  induction vs generalizing v i with
  | nil =>
    have : i = 0 := by simpa using Nat.lt_one_iff.mp (by simpa using h)
    simp [this, get_at_index]
  | cons t tail ih =>
    cases i with
    | zero => simp [get_at_index]
    | succ i =>
      have : get_at_index (i + 1) v (t :: tail) = get_at_index i t tail := by
        simp [get_at_index]
      rw [this, ih t i (by simpa using Nat.lt_of_succ_lt_succ h)]
      simp

/-- C1: batch_bool_constant::mask packs lane i's boolean into bit i: the mask
equals the sum over lanes of (lane i ? 2 ^ i : 0), and bit i of the mask is
get(i) for every lane index i below the lane count. -/
theorem mask_packs_lane_bits (vs : List Bool) (i : Nat) (h : i < vs.length) :
    mask vs = ∑ j ∈ Finset.range vs.length, (if vs.getD j false then 2 ^ j else 0)
      ∧ (mask vs).testBit i = bbc_get vs i := by
  constructor
  · rw [mask, mask_helper_eq (vs.map fun b => if b then 1 else 0).length _ rfl 0,
      Nat.zero_or, mask_core_sum]
  · rw [mask_testBit]
    match vs, h with
    | v :: tail, h => rw [bbc_get, get_at_index_eq_getD tail v i h]

theorem mask_packs_lane_bits_witness :
    2 < [true, false, true, true].length
      ∧ (mask [true, false, true, true]
          = ∑ j ∈ Finset.range [true, false, true, true].length,
              (if [true, false, true, true].getD j false then 2 ^ j else 0)
        ∧ (mask [true, false, true, true]).testBit 2 = bbc_get [true, false, true, true] 2) :=
  ⟨by decide, mask_packs_lane_bits [true, false, true, true] 2 (by decide)⟩

/-! ### Gather scale selection (xsimd_avx2.hpp, detail::prescaler) -/

/-- detail::select_scale: picks head when it divides required_scale, else
recurses on the tail; the last scale is picked unconditionally. The C++
template has no empty-scale-list instantiation; that case returns 0 here. -/
def select_scale (required : Nat) : List Nat → Nat
  | [] => 0
  | [head] => head
  | head :: next :: tail =>
      if required % head = 0 then head else select_scale required (next :: tail)

/-- detail::prescaler::scale: the hardware scale chosen from the legal list. -/
def prescaler_scale (required : Nat) (scales : List Nat) : Nat :=
  select_scale required scales

/-- detail::prescaler::prescale: the factor folded into the offsets. -/
def prescaler_prescale (required : Nat) (scales : List Nat) : Nat :=
  required / prescaler_scale required scales

/-- detail::prescaler::run on one lane of the offset batch: returns the
offset unchanged when prescale is 1, otherwise multiplies by prescale in
the offset element type, wrapping modulo its width 2 ^ w. -/
def prescaler_run (required : Nat) (scales : List Nat) (w off : Nat) : Nat :=
  if prescaler_prescale required scales = 1 then off
  else (prescaler_prescale required scales * off) % 2 ^ w

/-- C2: the avx2 gather instantiates prescaler with scales 8, 4, 2, 1: the
chosen hardware scale is the largest of those dividing the requested scale,
the offsets are multiplied by the remaining factor (unchanged when it is 1),
and hardware_scale * adjusted_offset is congruent to scale * offset modulo
the offset element width. -/
theorem avx2_gather_prescale_correct (s w off : Nat) :
    (prescaler_scale s [8, 4, 2, 1] ∈ [8, 4, 2, 1]
      ∧ s % prescaler_scale s [8, 4, 2, 1] = 0
      ∧ (∀ d ∈ [8, 4, 2, 1], s % d = 0 → d ≤ prescaler_scale s [8, 4, 2, 1]))
    ∧ (prescaler_scale s [8, 4, 2, 1] * prescaler_run s [8, 4, 2, 1] w off) % 2 ^ w
        = (s * off) % 2 ^ w := by
  have hsel : prescaler_scale s [8, 4, 2, 1]
      = if s % 8 = 0 then 8 else if s % 4 = 0 then 4 else if s % 2 = 0 then 2 else 1 := by
    simp only [prescaler_scale, select_scale]
  have hdvd : s % prescaler_scale s [8, 4, 2, 1] = 0 := by
    rw [hsel]; split_ifs <;> omega
  refine ⟨⟨?_, hdvd, ?_⟩, ?_⟩
  · rw [hsel]; split_ifs <;> simp
  · intro d hd hds
    rw [hsel]
    fin_cases hd <;> split_ifs <;> omega
  · have hmul : prescaler_scale s [8, 4, 2, 1] * prescaler_prescale s [8, 4, 2, 1] = s := by
      rw [prescaler_prescale]
      exact Nat.mul_div_cancel' (Nat.dvd_of_mod_eq_zero hdvd)
    rw [prescaler_run]
    split_ifs with h1
    · conv_rhs => rw [← hmul, h1, Nat.mul_one]
    · rw [Nat.mul_mod, Nat.mod_mod_of_dvd _ dvd_rfl, ← Nat.mul_mod, ← Nat.mul_assoc, hmul]

/-! ### Gather addressing helpers (xsimd_gather_utils.hpp)

The ramp constant has lane i equal to i; lanes of the value type are w-bit
patterns with two's-complement wraparound. -/

/-- stride_offset::get: stride * i computed in std::size_t (64-bit)
arithmetic. -/
def stride_offset_get (stride i : Nat) : Nat := (stride * i) % 2 ^ 64

/-- Lane i of the batch materialized from stride_offset: the ramp lane i
times the stride cast to the w-bit value_type, wrapping modulo 2 ^ w. -/
def stride_offset_lane (w stride i : Nat) : Nat :=
  (i * (stride % 2 ^ w)) % 2 ^ w

/-- first_n_true::get: the plain size_t comparison i < n. -/
def first_n_true_get (n i : Nat) : Bool := decide (i < n)

/-- Lane i of the batch_bool materialized from first_n_true: the signed
comparison ramp[i] < (int_type)n on w-bit lanes (the comparison is done
using signed integers; both operands are cast to the signed value type). -/
def first_n_true_lane (w n i : Nat) : Bool :=
  decide (toSigned w (i % 2 ^ w) < toSigned w (n % 2 ^ w))

/-- C3 counterexample: with 32-bit offset lanes and stride 2 ^ 31, lane 2 of
the materialized batch wraps to 0 while the scalar get returns 2 ^ 32, so
the vectorized materialization and the scalar get disagree. -/
theorem stride_offset_lane_ne_get :
    stride_offset_lane 32 (2 ^ 31) 2 ≠ stride_offset_get (2 ^ 31) 2 := by decide

/-- C3 (amended): the materializations agree with the scalar accessors on
the range the helpers are used with: lane i of stride_offset equals
stride * i (and hence get(i)) whenever the product fits in the w-bit lane,
and lane i of first_n_true equals get(i) = (i < n) whenever both i and n
are below 2 ^ (w - 1), i.e. representable in the signed value type. -/
theorem addressing_helpers_agree (w stride n i : Nat)
    (hsi : stride * i < 2 ^ w) (hwle : w ≤ 64)
    (hn : n < 2 ^ (w - 1)) (hi : i < 2 ^ (w - 1)) :
    stride_offset_lane w stride i = stride_offset_get stride i
      ∧ stride_offset_lane w stride i = stride * i
      ∧ first_n_true_lane w n i = first_n_true_get n i := by
  have hlane : stride_offset_lane w stride i = stride * i := by
    rw [stride_offset_lane, Nat.mul_mod, Nat.mod_mod_of_dvd _ dvd_rfl, ← Nat.mul_mod,
      Nat.mul_comm, Nat.mod_eq_of_lt hsi]
  have hget : stride_offset_get stride i = stride * i := by
    rw [stride_offset_get, Nat.mod_eq_of_lt (lt_of_lt_of_le hsi (Nat.pow_le_pow_right (by norm_num) hwle))]
  refine ⟨by rw [hlane, hget], hlane, ?_⟩
  have hw2 : 2 ^ (w - 1) ≤ 2 ^ w := Nat.pow_le_pow_right (by norm_num) (Nat.sub_le w 1)
  rw [first_n_true_lane, first_n_true_get,
    Nat.mod_eq_of_lt (lt_of_lt_of_le hi hw2), Nat.mod_eq_of_lt (lt_of_lt_of_le hn hw2),
    toSigned_of_lt w i hi, toSigned_of_lt w n hn]
  simp

theorem addressing_helpers_agree_witness :
    (3 * 4 < 2 ^ 32 ∧ 32 ≤ 64 ∧ 5 < 2 ^ (32 - 1) ∧ 4 < 2 ^ (32 - 1))
      ∧ (stride_offset_lane 32 3 4 = stride_offset_get 3 4
        ∧ stride_offset_lane 32 3 4 = 3 * 4
        ∧ first_n_true_lane 32 5 4 = first_n_true_get 5 4) :=
  ⟨⟨by norm_num, by norm_num, by norm_num, by norm_num⟩,
    addressing_helpers_agree 32 3 5 4 (by norm_num) (by norm_num) (by norm_num) (by norm_num)⟩

/-! ### avx2 mul for 8-byte integers (xsimd_avx2.hpp, mul, case 8)

A 256-bit register is modelled as the list of its eight 32-bit lanes in
little-endian lane order (or of its four 64-bit lanes where noted). -/

/-- Splits 64-bit lanes into 32-bit lanes, low half first. -/
def from64 : List Nat → List Nat
  | [] => []
  | x :: xs => x % 2 ^ 32 :: x / 2 ^ 32 :: from64 xs

/-- Recombines pairs of 32-bit lanes into 64-bit lanes. -/
def to64 : List Nat → List Nat
  | lo :: hi :: rest => (lo + 2 ^ 32 * hi) :: to64 rest
  | _ => []

/-- Semantics of _mm256_shuffle_epi32: within each 128-bit half, 32-bit lane
j of the result is lane ((imm >> 2j) and 3) of the source half. -/
def shuffle_epi32 (imm : Nat) (v : List Nat) : List Nat :=
  match v with
  | [a0, a1, a2, a3, a4, a5, a6, a7] =>
    let lo := [a0, a1, a2, a3]
    let hi := [a4, a5, a6, a7]
    let pick := fun (h : List Nat) (j : Nat) => h.getD ((imm >>> (2 * j)) &&& 3) 0
    [pick lo 0, pick lo 1, pick lo 2, pick lo 3, pick hi 0, pick hi 1, pick hi 2, pick hi 3]
  | _ => []

/-- Semantics of _mm256_mullo_epi32: lane-wise 32-bit product, low half. -/
def mullo_epi32 (a b : List Nat) : List Nat :=
  List.zipWith (fun x y => (x * y) % 2 ^ 32) a b

/-- Semantics of _mm256_hadd_epi32: within each 128-bit half, adjacent pairs
of a then of b, each sum wrapping at 32 bits. -/
def hadd_epi32 (a b : List Nat) : List Nat :=
  match a, b with
  | [a0, a1, a2, a3, a4, a5, a6, a7], [b0, b1, b2, b3, b4, b5, b6, b7] =>
    [(a0 + a1) % 2 ^ 32, (a2 + a3) % 2 ^ 32, (b0 + b1) % 2 ^ 32, (b2 + b3) % 2 ^ 32,
     (a4 + a5) % 2 ^ 32, (a6 + a7) % 2 ^ 32, (b4 + b5) % 2 ^ 32, (b6 + b7) % 2 ^ 32]
  | _, _ => []

/-- Semantics of _mm256_mul_epu32: full 64-bit unsigned products of the
even 32-bit lanes, one per 64-bit lane. -/
def mul_epu32 (a b : List Nat) : List Nat :=
  match a, b with
  | [a0, _, a2, _, a4, _, a6, _], [b0, _, b2, _, b4, _, b6, _] =>
    from64 [a0 * b0, a2 * b2, a4 * b4, a6 * b6]
  | _, _ => []

/-- Semantics of _mm256_add_epi64: lane-wise 64-bit addition with wraparound. -/
def add_epi64 (a b : List Nat) : List Nat :=
  from64 (List.zipWith (fun x y => (x + y) % 2 ^ 64) (to64 a) (to64 b))

/-- Semantics of _mm256_setzero_si256 viewed as 32-bit lanes. -/
def setzero_si256 : List Nat := [0, 0, 0, 0, 0, 0, 0, 0]

/-- kernel::mul for 8-byte integers on avx2 (case 8 of the switch), taking
and returning the four 64-bit lanes: swap-halves shuffle of other, 32-bit
low products, horizontal add against zero, repositioning shuffle, 32x32 to
64 unsigned products of the low halves, and a final 64-bit add. -/
def mul_epi64_avx2 (self other : List Nat) : List Nat :=
  let s := from64 self
  let o := from64 other
  let bswap := shuffle_epi32 0xB1 o
  let prodlh := mullo_epi32 s bswap
  let zero := setzero_si256
  let prodlh2 := hadd_epi32 prodlh zero
  let prodlh3 := shuffle_epi32 0x73 prodlh2
  let prodll := mul_epu32 s o
  to64 (add_epi64 prodll prodlh3)

theorem mul64_lane (a b : Nat) :
    (a % 2 ^ 32 * (b % 2 ^ 32)
        + 2 ^ 32 * ((a % 2 ^ 32 * (b / 2 ^ 32) + a / 2 ^ 32 * (b % 2 ^ 32)) % 2 ^ 32))
      % 2 ^ 64 = a * b % 2 ^ 64 := by
  have ha := Nat.div_add_mod a (2 ^ 32)
  have hb := Nat.div_add_mod b (2 ^ 32)
  set al := a % 2 ^ 32
  set ah := a / 2 ^ 32
  set bl := b % 2 ^ 32
  set bh := b / 2 ^ 32
  have hcongr : (al * bl + 2 ^ 32 * ((al * bh + ah * bl) % 2 ^ 32)) % 2 ^ 64
      = (al * bl + 2 ^ 32 * (al * bh + ah * bl)) % 2 ^ 64 := by
    have h2 : (2 ^ 32 : Nat) * ((al * bh + ah * bl) % 2 ^ 32)
        ≡ 2 ^ 32 * (al * bh + ah * bl) [MOD 2 ^ 32 * 2 ^ 32] :=
      Nat.ModEq.mul_left' (2 ^ 32) (Nat.mod_modEq _ _)
    have h3 : (2 ^ 32 : Nat) * 2 ^ 32 = 2 ^ 64 := by norm_num
    exact Nat.ModEq.add_left _ (h3 ▸ h2)
  rw [hcongr]
  have hab : a * b = al * bl + 2 ^ 32 * (al * bh + ah * bl) + 2 ^ 64 * (ah * bh) := by
    calc a * b = (2 ^ 32 * ah + al) * (2 ^ 32 * bh + bl) := by rw [ha, hb]
    _ = al * bl + 2 ^ 32 * (al * bh + ah * bl) + 2 ^ 64 * (ah * bh) := by ring
  rw [hab, Nat.add_mul_mod_self_left]

/-- Closing step for each 64-bit lane, in the exact shape the pipeline
reduction produces. -/
theorem mul64_lane_final (x y : Nat) :
    x * y % 4294967296
        + 4294967296 * ((x * y % 4294967296
            + 4294967296 * (x % 4294967296 * (y % 4294967296) / 4294967296)
            + 4294967296 * ((x * (y / 4294967296) + x / 4294967296 * y) % 4294967296))
          % 18446744073709551616 / 4294967296)
      = x * y % 18446744073709551616 := by
  have h32 : (4294967296 : Nat) = 2 ^ 32 := by norm_num
  have h64 : (18446744073709551616 : Nat) = 2 ^ 64 := by norm_num
  rw [h32, h64]
  have hcross : (x * (y / 2 ^ 32) + x / 2 ^ 32 * y) % 2 ^ 32
      = (x % 2 ^ 32 * (y / 2 ^ 32) + x / 2 ^ 32 * (y % 2 ^ 32)) % 2 ^ 32 := by
    have h1 : x * (y / 2 ^ 32) ≡ x % 2 ^ 32 * (y / 2 ^ 32) [MOD 2 ^ 32] :=
      Nat.ModEq.mul_right _ (Nat.mod_modEq x _).symm
    have h2 : x / 2 ^ 32 * y ≡ x / 2 ^ 32 * (y % 2 ^ 32) [MOD 2 ^ 32] :=
      Nat.ModEq.mul_left _ (Nat.mod_modEq y _).symm
    exact h1.add h2
  have hlow : x * y % 2 ^ 32 = x % 2 ^ 32 * (y % 2 ^ 32) % 2 ^ 32 := Nat.mul_mod x y (2 ^ 32)
  have hinner : (x * y % 2 ^ 32 + 2 ^ 32 * (x % 2 ^ 32 * (y % 2 ^ 32) / 2 ^ 32)
        + 2 ^ 32 * ((x * (y / 2 ^ 32) + x / 2 ^ 32 * y) % 2 ^ 32)) % 2 ^ 64
      = x * y % 2 ^ 64 := by
    rw [hcross, hlow, Nat.mod_add_div (x % 2 ^ 32 * (y % 2 ^ 32)) (2 ^ 32)]
    exact mul64_lane x y
  rw [hinner]
  set z := x * y % 2 ^ 64 with hz
  have hzlow : x * y % 2 ^ 32 = z % 2 ^ 32 := by
    rw [hz, Nat.mod_mod_of_dvd]
    exact pow_dvd_pow 2 (by norm_num)
  rw [hzlow, Nat.mod_add_div z (2 ^ 32)]

/-- C4: the avx2 mul kernel for 8-byte integer batches returns, at each
lane, the low 64 bits of the product of the corresponding input lanes,
although it is synthesized from 32-bit multiply, horizontal-add and
shuffle primitives. -/
theorem avx2_mul64_correct (x0 x1 x2 x3 y0 y1 y2 y3 : Nat) :
    mul_epi64_avx2 [x0, x1, x2, x3] [y0, y1, y2, y3]
      = [x0 * y0 % 2 ^ 64, x1 * y1 % 2 ^ 64, x2 * y2 % 2 ^ 64, x3 * y3 % 2 ^ 64] := by
  have s1 : (177 : Nat) &&& 3 = 1 := by decide
  have s2 : (44 : Nat) &&& 3 = 0 := by decide
  have s3 : (11 : Nat) &&& 3 = 3 := by decide
  have s4 : (2 : Nat) &&& 3 = 2 := by decide
  have s5 : (115 : Nat) &&& 3 = 3 := by decide
  have s6 : (28 : Nat) &&& 3 = 0 := by decide
  have s7 : (7 : Nat) &&& 3 = 3 := by decide
  have s8 : (1 : Nat) &&& 3 = 1 := by decide
  simp only [mul_epi64_avx2, from64, shuffle_epi32, mullo_epi32, hadd_epi32, setzero_si256,
    mul_epu32, add_epi64, to64, List.zipWith, Nat.reduceMul, Nat.reduceShiftRight,
    s1, s2, s3, s4, s5, s6, s7, s8, List.getD]
  norm_num
  exact ⟨mul64_lane_final x0 y0, mul64_lane_final x1 y1, mul64_lane_final x2 y2,
    mul64_lane_final x3 y3⟩

/-! ### Lane-list constructors (xsimd_batch.hpp) -/

/-- batch(std::initializer_list): the delegating constructor builds the
lanes from data[0..size-1] and asserts data.size() == size ("consistent
initialization"); the assertion failure is modelled as Except.error. The
out-of-range reads a failing run would perform before aborting are
undefined in C++ and not modelled. -/
def batch_ofList (size : Nat) (data : List Int) : Except String (List Int) :=
  if data.length = size then Except.ok ((List.range size).map fun i => data.getD i 0)
  else Except.error "consistent initialization"

/-- batch_bool(std::initializer_list): delegates to the lane-building
constructor with indices 0..size-1 and performs no assertion at all;
out-of-range reads of a too-short list are undefined in C++ and modelled
by the default value false, and extra entries are silently ignored. -/
def batch_bool_ofList (size : Nat) (data : List Bool) : Except String (List Bool) :=
  Except.ok ((List.range size).map fun i => data.getD i false)

/-- C5 counterexample: constructing an 8-lane batch_bool from a 1-element
lane list succeeds silently (padding with the indeterminate out-of-range
reads) instead of failing an assertion. -/
theorem batch_bool_ofList_no_assert :
    (batch_bool_ofList 8 [true]).isOk = true ∧ [true].length ≠ 8 :=
  ⟨rfl, by decide⟩

/-- C5 (amended): the batch lane-list constructor fails loudly via its
assertion exactly when the list length differs from size; the batch_bool
lane-list constructor has no such assertion and always succeeds. -/
theorem init_list_shape_check (size : Nat) (data : List Int) (bdata : List Bool) :
    ((batch_ofList size data).isOk = true ↔ data.length = size)
      ∧ (batch_bool_ofList size bdata).isOk = true := by
  refine ⟨?_, rfl⟩
  rw [batch_ofList]
  split_ifs with h <;> simp [h, Except.isOk, Except.toBool]

/-! ### Complex batch multiplication (xsimd_batch.hpp, operator*=)

The real-lane arithmetic of the element type is modelled exactly (the
template is generic in the underlying real batch operations; the claimed
law is the algebraic composition of those operations). -/

/-- Lane-wise sum of two real batches. -/
def radd (a b : List Int) : List Int := List.zipWith (fun x y => x + y) a b

/-- Lane-wise difference of two real batches. -/
def rsub (a b : List Int) : List Int := List.zipWith (fun x y => x - y) a b

/-- Lane-wise product of two real batches. -/
def rmul (a b : List Int) : List Int := List.zipWith (fun x y => x * y) a b

/-- batch(complex) operator*=: new_real = real*other.real - imag*other.imag,
new_imag = real*other.imag + imag*other.real, as a pair (real, imag). -/
def cmul (xr xi yr yi : List Int) : List Int × List Int :=
  (rsub (rmul xr yr) (rmul xi yi), radd (rmul xr yi) (rmul xi yr))

theorem zipWith_getD (f : Int → Int → Int) (a b : List Int) (i : Nat)
    (ha : i < a.length) (hb : i < b.length) :
    (List.zipWith f a b).getD i 0 = f (a.getD i 0) (b.getD i 0) := by
  induction a generalizing b i with
  | nil => simp at ha
  | cons x xs ih =>
    cases b with
    | nil => simp at hb
    | cons y ys =>
      cases i with
      | zero => simp
      | succ i => simpa using ih ys i (by simpa using ha) (by simpa using hb)

/-- C8: complex batch multiplication is lane-wise (ac - bd, ad + bc), and
the concrete batches (real=[1,2], imag=[3,4]) times (real=[5,6], imag=[7,8])
give real=[-16,-20], imag=[22,40]. -/
theorem complex_mul_law (xr xi yr yi : List Int) (i : Nat)
    (hxr : i < xr.length) (hxi : i < xi.length) (hyr : i < yr.length) (hyi : i < yi.length) :
    ((cmul xr xi yr yi).1.getD i 0
        = xr.getD i 0 * yr.getD i 0 - xi.getD i 0 * yi.getD i 0
      ∧ (cmul xr xi yr yi).2.getD i 0
        = xr.getD i 0 * yi.getD i 0 + xi.getD i 0 * yr.getD i 0)
    ∧ cmul [1, 2] [3, 4] [5, 6] [7, 8] = ([-16, -20], [22, 40]) := by
  have lrr : i < (rmul xr yr).length := by simp [rmul]; omega
  have lii : i < (rmul xi yi).length := by simp [rmul]; omega
  have lri : i < (rmul xr yi).length := by simp [rmul]; omega
  have lir : i < (rmul xi yr).length := by simp [rmul]; omega
  refine ⟨⟨?_, ?_⟩, by decide⟩
  · rw [cmul]
    rw [rsub, zipWith_getD _ _ _ _ lrr lii, rmul, rmul,
      zipWith_getD _ _ _ _ hxr hyr, zipWith_getD _ _ _ _ hxi hyi]
  · rw [cmul]
    rw [radd, zipWith_getD _ _ _ _ lri lir, rmul, rmul,
      zipWith_getD _ _ _ _ hxr hyi, zipWith_getD _ _ _ _ hxi hyr]

theorem complex_mul_law_witness :
    (0 < [(1 : Int), 2].length ∧ 0 < [(3 : Int), 4].length
        ∧ 0 < [(5 : Int), 6].length ∧ 0 < [(7 : Int), 8].length)
      ∧ (((cmul [1, 2] [3, 4] [5, 6] [7, 8]).1.getD 0 0
            = [(1 : Int), 2].getD 0 0 * [(5 : Int), 6].getD 0 0
              - [(3 : Int), 4].getD 0 0 * [(7 : Int), 8].getD 0 0
          ∧ (cmul [1, 2] [3, 4] [5, 6] [7, 8]).2.getD 0 0
            = [(1 : Int), 2].getD 0 0 * [(7 : Int), 8].getD 0 0
              + [(3 : Int), 4].getD 0 0 * [(5 : Int), 6].getD 0 0)
        ∧ cmul [1, 2] [3, 4] [5, 6] [7, 8] = ([-16, -20], [22, 40])) :=
  ⟨⟨by decide, by decide, by decide, by decide⟩,
    complex_mul_law [1, 2] [3, 4] [5, 6] [7, 8] 0
      (by decide) (by decide) (by decide) (by decide)⟩

/-! ### allow_signed_conversion (xsimd_gather_utils.hpp) -/

/-- batch::get for a w-bit integer batch holding lane bit patterns reps:
the stored pattern read back as the element type, signed or unsigned. -/
def batch_get_int (w : Nat) (signed : Bool) (reps : List Nat) (i : Nat) : Int :=
  if signed then toSigned w (reps.getD i 0) else (reps.getD i 0 : Int)

/-- allow_signed_conversion::get: static_cast<unsigned_t>(b.get(i)), i.e.
the element value converted to the unsigned type of the same width. -/
def allow_signed_conversion_get (w : Nat) (signed : Bool) (reps : List Nat) (i : Nat) : Nat :=
  ofSigned w (batch_get_int w signed reps i)

/-- allow_signed_conversion::operator signed_batch: bitwise_cast to the
signed batch type keeps every lane bit pattern unchanged. -/
def allow_signed_conversion_to_signed (reps : List Nat) : List Nat := reps

theorem ofSigned_natCast (w r : Nat) (h : r < 2 ^ w) : ofSigned w (r : Int) = r := by
  rw [ofSigned, Int.emod_eq_of_lt (by positivity) (by exact_mod_cast h)]
  exact Int.toNat_natCast r

/-- C9: the two views of a wrapped batch denote the same lanes up to
reinterpretation: get(i) is the unsigned reinterpretation of lane i of b
(its bit pattern), the conversion to the signed batch type is the bitwise
cast of b, and lane i of the signed materialization carries the bit pattern
get(i) returns. -/
theorem allow_signed_conversion_views_agree (w : Nat) (signed : Bool) (reps : List Nat)
    (i : Nat) (hv : ∀ r ∈ reps, r < 2 ^ w) (hi : i < reps.length) :
    allow_signed_conversion_get w signed reps i = reps.getD i 0
      ∧ (allow_signed_conversion_to_signed reps).getD i 0 = reps.getD i 0
      ∧ ofSigned w (toSigned w ((allow_signed_conversion_to_signed reps).getD i 0))
          = allow_signed_conversion_get w signed reps i := by
  have hmem : reps.getD i 0 ∈ reps := by
    rw [List.getD_eq_getElem reps 0 hi]
    exact List.getElem_mem hi
  have hlt : reps.getD i 0 < 2 ^ w := hv _ hmem
  have hget : allow_signed_conversion_get w signed reps i = reps.getD i 0 := by
    rw [allow_signed_conversion_get, batch_get_int]
    cases signed with
    | true => simpa using ofSigned_toSigned w _ hlt
    | false => simpa using ofSigned_natCast w _ hlt
  exact ⟨hget, rfl, by rw [allow_signed_conversion_to_signed, ofSigned_toSigned w _ hlt, hget]⟩

theorem allow_signed_conversion_views_agree_witness :
    ((∀ r ∈ [200, 3], r < 2 ^ 8) ∧ 0 < [200, 3].length)
      ∧ (allow_signed_conversion_get 8 true [200, 3] 0 = [200, 3].getD 0 0
        ∧ (allow_signed_conversion_to_signed [200, 3]).getD 0 0 = [200, 3].getD 0 0
        ∧ ofSigned 8 (toSigned 8 ((allow_signed_conversion_to_signed [200, 3]).getD 0 0))
            = allow_signed_conversion_get 8 true [200, 3] 0) :=
  ⟨⟨by decide, by decide⟩,
    allow_signed_conversion_views_agree 8 true [200, 3] 0 (by decide) (by decide)⟩

/-! ### avx2 bitwise_rshift (xsimd_avx2.hpp)

Lanes are w-bit unsigned patterns; the srai / srli intrinsics act per lane
as arithmetic (on the two's-complement value) and logical shifts. -/

/-- Per-lane semantics of the srai intrinsics: arithmetic (sign-extending)
right shift of one w-bit lane held as its unsigned pattern. -/
def srai_lane (w k x : Nat) : Nat := ofSigned w (toSigned w x >>> k)

/-- Per-lane semantics of the srli intrinsics: logical right shift. -/
def srli_lane (k x : Nat) : Nat := x >>> k

/-- One 16-bit lane (two bytes, low byte first) of the avx2 1-byte signed
right-shift synthesis: sign_mask is (0xFF00 >> k) & 0xFF broadcast per
16-bit lane (so its low byte holds the mask, its high byte 0),
cmp_is_negative is the per-byte comparison 0 > b giving 0xFF or 0, res is
the 16-bit arithmetic shift of the lane, and the result is
(sign_mask & cmp_is_negative) | (~sign_mask & res) per byte. -/
def rshift_i8_lane_pair (k b0 b1 : Nat) : Nat × Nat :=
  ((((0xFF00 >>> k) &&& 0xFF) &&& (if 2 ^ 7 ≤ b0 then 0xFF else 0))
      ||| ((0xFF ^^^ ((0xFF00 >>> k) &&& 0xFF)) &&& (srai_lane 16 k (b0 + 2 ^ 8 * b1) % 2 ^ 8)),
   (0 &&& (if 2 ^ 7 ≤ b1 then 0xFF else 0))
      ||| ((0xFF ^^^ 0) &&& (srai_lane 16 k (b0 + 2 ^ 8 * b1) / 2 ^ 8)))

/-- The avx2 1-byte signed right shift over the byte-lane list, two bytes
(one 16-bit lane) at a time. -/
def rshift_i8_synth (k : Nat) : List Nat → List Nat
  | b0 :: b1 :: rest =>
      (rshift_i8_lane_pair k b0 b1).1 :: (rshift_i8_lane_pair k b0 b1).2
        :: rshift_i8_synth k rest
  | rest => rest

/-- kernel::bitwise_rshift(batch, int32_t) on avx2: dispatch on signedness
and element byte width as in the source switch. The signed 8-byte and
unsigned 1-byte cases defer to the avx tier, whose kernels are not under
src/; modelled from the spec: right shift on signed types is arithmetic
(sign-extending), on unsigned logical. -/
def bitwise_rshift_avx2 (sizeofT : Nat) (signed : Bool) (k : Nat) (lanes : List Nat)
    : List Nat :=
  if signed then
    match sizeofT with
    | 1 => rshift_i8_synth k lanes
    | 2 => lanes.map (srai_lane 16 k)
    | 4 => lanes.map (srai_lane 32 k)
    | _ => lanes.map (srai_lane (8 * sizeofT) k)
  else
    match sizeofT with
    | 2 => lanes.map (srli_lane k)
    | 4 => lanes.map (srli_lane k)
    | 8 => lanes.map (srli_lane k)
    | _ => lanes.map (srli_lane k)

theorem pow_two_sub_one_and (n x : Nat) : (2 ^ n - 1) &&& x = x % 2 ^ n := by
  rw [Nat.and_comm, Nat.and_pow_two_sub_one_eq_mod]

theorem sm_eval (k : Nat) (hk : k < 8) :
    (0xFF00 >>> k) &&& 0xFF = 2 ^ 8 - 2 ^ (8 - k) := by
  interval_cases k <;> decide

theorem sm_and_255 (k : Nat) (hk : k < 8) :
    (2 ^ 8 - 2 ^ (8 - k)) &&& 255 = 2 ^ 8 - 2 ^ (8 - k) := by
  interval_cases k <;> decide

theorem xor_255_sm (k : Nat) (hk : k < 8) :
    255 ^^^ (2 ^ 8 - 2 ^ (8 - k)) = 2 ^ (8 - k) - 1 := by
  interval_cases k <;> decide

set_option maxRecDepth 20000 in
theorem or_sm (k : Nat) (hk : k < 8) :
    ∀ x, x < 2 ^ (8 - k) → ((2 ^ 8 - 2 ^ (8 - k)) ||| x) = 2 ^ 8 - 2 ^ (8 - k) + x := by
  interval_cases k <;> decide

set_option maxHeartbeats 3200000 in
/-- The synthesized 16-bit blend computes the 1-byte arithmetic shift on
both bytes of the lane. -/
theorem rshift_i8_pair_correct (k b0 b1 : Nat) (hk : k < 8) (h0 : b0 < 256) (h1 : b1 < 256) :
    rshift_i8_lane_pair k b0 b1 = (srai_lane 8 k b0, srai_lane 8 k b1) := by
  have h255and : ∀ x : Nat, 255 &&& x = x % 256 := by
    intro x
    have h := pow_two_sub_one_and 8 x
    norm_num at h
    exact h
  rw [rshift_i8_lane_pair, sm_eval k hk, xor_255_sm k hk, pow_two_sub_one_and,
    Nat.zero_and, Nat.zero_or, Nat.xor_zero, h255and]
  have hmodlt : srai_lane 16 k (b0 + 2 ^ 8 * b1) % 2 ^ 8 % 2 ^ (8 - k) < 2 ^ (8 - k) :=
    Nat.mod_lt _ (pow_pos (by norm_num) _)
  simp only [Prod.mk.injEq]
  split_ifs with hs0
  · rw [sm_and_255 k hk, or_sm k hk _ hmodlt]
    constructor <;>
    · simp only [srai_lane, toSigned, ofSigned, Int.shiftRight_eq_div_pow]
      interval_cases k <;> (split_ifs <;> omega)
  · rw [Nat.and_zero, Nat.zero_or]
    constructor <;>
    · simp only [srai_lane, toSigned, ofSigned, Int.shiftRight_eq_div_pow]
      interval_cases k <;> (split_ifs <;> omega)

theorem rshift_i8_synth_map (k : Nat) (hk : k < 8) :
    ∀ lanes : List Nat, (∀ x ∈ lanes, x < 256) → lanes.length % 2 = 0 →
      rshift_i8_synth k lanes = lanes.map (srai_lane 8 k)
  | [] => by intro _ _; rfl
  | [b] => by intro _ hlen; simp at hlen
  | b0 :: b1 :: rest => by
    intro hv hlen
    rw [rshift_i8_synth,
      rshift_i8_pair_correct k b0 b1 hk (hv b0 (by simp)) (hv b1 (by simp)),
      rshift_i8_synth_map k hk rest (fun x hx => hv x (by simp [hx])) (by simp at hlen; omega)]
    simp

/-- C6: on avx2, right-shifting an integer batch by a scalar k in range is
lane-wise arithmetic when the element type is signed (including the 1-byte
case synthesized from a sign mask blended over a widened 16-bit arithmetic
shift) and logical when unsigned; arithmetic shift is floor division of the
two's-complement value by 2 ^ k; and the signed 32-bit batch [0..7] shifted
right by 1 gives [0,0,1,1,2,2,3,3] while its negation gives
[0,-1,-1,-2,-2,-3,-3,-4]. -/
theorem avx2_rshift_correct (sizeofT k : Nat) (signed : Bool) (lanes : List Nat)
    (hsz : sizeofT ∈ [1, 2, 4, 8]) (hk : k < 8 * sizeofT)
    (hv : ∀ x ∈ lanes, x < 2 ^ (8 * sizeofT)) (hlen : lanes.length % 2 = 0) :
    bitwise_rshift_avx2 sizeofT signed k lanes
        = lanes.map (fun x => if signed then srai_lane (8 * sizeofT) k x else srli_lane k x)
      ∧ (∀ x : Nat, srai_lane (8 * sizeofT) k x
          = ofSigned (8 * sizeofT) (toSigned (8 * sizeofT) x / ((2 ^ k : Nat) : Int)))
      ∧ bitwise_rshift_avx2 4 true 1 (([0, 1, 2, 3, 4, 5, 6, 7] : List Int).map (ofSigned 32))
          = ([0, 0, 1, 1, 2, 2, 3, 3] : List Int).map (ofSigned 32)
      ∧ bitwise_rshift_avx2 4 true 1 (([0, -1, -2, -3, -4, -5, -6, -7] : List Int).map (ofSigned 32))
          = ([0, -1, -1, -2, -2, -3, -3, -4] : List Int).map (ofSigned 32) := by
  refine ⟨?_, ?_, by decide, by decide⟩
  · fin_cases hsz <;> cases signed
    · simp [bitwise_rshift_avx2]
    · simp only [bitwise_rshift_avx2]
      rw [rshift_i8_synth_map k (by omega) lanes (by simpa using hv) hlen]
      simp
    · simp [bitwise_rshift_avx2]
    · simp [bitwise_rshift_avx2]
    · simp [bitwise_rshift_avx2]
    · simp [bitwise_rshift_avx2]
    · simp [bitwise_rshift_avx2]
    · simp [bitwise_rshift_avx2]
  · intro x
    rw [srai_lane, Int.shiftRight_eq_div_pow]

theorem avx2_rshift_correct_witness :
    ((4 : Nat) ∈ [1, 2, 4, 8] ∧ 1 < 8 * 4
        ∧ (∀ x ∈ ([0, 1, 2, 3, 4, 5, 6, 7] : List Int).map (ofSigned 32), x < 2 ^ (8 * 4))
        ∧ (([0, 1, 2, 3, 4, 5, 6, 7] : List Int).map (ofSigned 32)).length % 2 = 0)
      ∧ (bitwise_rshift_avx2 4 true 1 (([0, 1, 2, 3, 4, 5, 6, 7] : List Int).map (ofSigned 32))
            = (([0, 1, 2, 3, 4, 5, 6, 7] : List Int).map (ofSigned 32)).map
                (fun x => if true then srai_lane (8 * 4) 1 x else srli_lane 1 x)
          ∧ (∀ x : Nat, srai_lane (8 * 4) 1 x
              = ofSigned (8 * 4) (toSigned (8 * 4) x / ((2 ^ 1 : Nat) : Int)))
          ∧ bitwise_rshift_avx2 4 true 1 (([0, 1, 2, 3, 4, 5, 6, 7] : List Int).map (ofSigned 32))
              = ([0, 0, 1, 1, 2, 2, 3, 3] : List Int).map (ofSigned 32)
          ∧ bitwise_rshift_avx2 4 true 1
                (([0, -1, -2, -3, -4, -5, -6, -7] : List Int).map (ofSigned 32))
              = ([0, -1, -1, -2, -2, -3, -3, -4] : List Int).map (ofSigned 32)) :=
  ⟨⟨by decide, by decide, by decide, by decide⟩,
    avx2_rshift_correct 4 1 true (([0, 1, 2, 3, 4, 5, 6, 7] : List Int).map (ofSigned 32))
      (by decide) (by decide) (by decide) (by decide)⟩

/-! ### avx2 select (xsimd_avx2.hpp) -/

/-- Byte j (little-endian) of a lane pattern x. -/
def byte (x j : Nat) : Nat := x / 2 ^ (8 * j) % 2 ^ 8

/-- Semantics of _mm256_blendv_epi8 on one lane of nbytes bytes: result
byte j comes from x when byte j of the mask c has its top bit set, else
from y. -/
def blendv_lane (nbytes c x y : Nat) : Nat :=
  ∑ j ∈ Finset.range nbytes,
    (if 2 ^ 7 ≤ byte c j then byte x j else byte y j) * 2 ^ (8 * j)

/-- kernel::select(batch_bool, batch, batch) on avx2: every element width
uses _mm256_blendv_epi8 with false_br as first and true_br as second
operand, lane-wise over the three registers. -/
def select_avx2 (nbytes : Nat) : List Nat → List Nat → List Nat → List Nat
  | c :: cs, x :: xs, y :: ys => blendv_lane nbytes c x y :: select_avx2 nbytes cs xs ys
  | _, _, _ => []

/-- Semantics of _mm256_blend_epi32 over the eight 32-bit lanes: lane i of
the result is the second operand's lane when bit i of the immediate is set,
else the first operand's. -/
def blend_epi32 (imm : Nat) (a b : List Nat) : List Nat :=
  match a, b with
  | [a0, a1, a2, a3, a4, a5, a6, a7], [b0, b1, b2, b3, b4, b5, b6, b7] =>
    [if imm >>> 0 % 2 = 1 then b0 else a0, if imm >>> 1 % 2 = 1 then b1 else a1,
     if imm >>> 2 % 2 = 1 then b2 else a2, if imm >>> 3 % 2 = 1 then b3 else a3,
     if imm >>> 4 % 2 = 1 then b4 else a4, if imm >>> 5 % 2 = 1 then b5 else a5,
     if imm >>> 6 % 2 = 1 then b6 else a6, if imm >>> 7 % 2 = 1 then b7 else a7]
  | _, _ => []

/-- kernel::select for a compile-time batch_bool_constant over 4-byte lanes:
_mm256_blend_epi32(false_br, true_br, mask()). -/
def select_const_avx2_epi32 (bs : List Bool) (t f : List Nat) : List Nat :=
  blend_epi32 (mask bs) f t

/-- Modelled from the spec: detail::interleave (declared in xsimd_utils.hpp,
which is not under src/) duplicates each of the low four mask bits into the
adjacent bit pair (2i, 2i+1), so that each 64-bit lane is covered by two
equal 32-bit blend selector bits. -/
def interleave (m : Nat) : Nat :=
  m >>> 0 % 2 * 3 + m >>> 1 % 2 * 12 + m >>> 2 % 2 * 48 + m >>> 3 % 2 * 192

/-- kernel::select for a compile-time batch_bool_constant over 8-byte lanes:
_mm256_blend_epi32(false_br, true_br, interleave(mask())) viewed through the
32-bit halves of the four 64-bit lanes. -/
def select_const_avx2_epi64 (bs : List Bool) (t f : List Nat) : List Nat :=
  to64 (blend_epi32 (interleave (mask bs)) (from64 f) (from64 t))

theorem byte_sum : ∀ n x : Nat, x < 2 ^ (8 * n) →
    ∑ j ∈ Finset.range n, byte x j * 2 ^ (8 * j) = x := by
  intro n
  induction n with
  | zero =>
    intro x hx
    simp only [Nat.mul_zero, pow_zero] at hx
    interval_cases x
    simp
  | succ n ih =>
    intro x hx
    rw [Finset.sum_range_succ']
    have hterm : ∀ j, byte x (j + 1) * 2 ^ (8 * (j + 1))
        = 2 ^ 8 * (byte (x / 2 ^ 8) j * 2 ^ (8 * j)) := by
      intro j
      have h1 : 8 * (j + 1) = 8 + 8 * j := by ring
      rw [byte, byte, h1, pow_add, ← Nat.div_div_eq_div_mul]
      ring
    simp only [hterm]
    rw [← Finset.mul_sum, ih (x / 2 ^ 8) ?hbound]
    case hbound =>
      have h2 : 8 * (n + 1) = 8 + 8 * n := by ring
      rw [h2, pow_add] at hx
      exact Nat.div_lt_of_lt_mul hx
    simp only [byte, Nat.mul_zero, pow_zero, Nat.div_one, mul_one]
    omega

theorem byte_allones (nb j : Nat) (hj : j < nb) : byte (2 ^ (8 * nb) - 1) j = 255 := by
  apply Nat.eq_of_testBit_eq
  intro k
  rw [byte, ← Nat.shiftRight_eq_div_pow, Nat.testBit_mod_two_pow, Nat.testBit_shiftRight,
    Nat.testBit_two_pow_sub_one,
    show (255 : Nat) = 2 ^ 8 - 1 by norm_num, Nat.testBit_two_pow_sub_one]
  by_cases hk : k < 8
  · have h2 : 8 * j + k < 8 * nb := by omega
    simp [hk, h2]
  · simp [hk]

theorem byte_zero (j : Nat) : byte 0 j = 0 := by
  simp [byte]

/-- blendv on a valid mask lane (all-zeros or all-ones pattern) selects the
whole lane. -/
theorem blendv_lane_select (nb c x y : Nat) (hc : c = 0 ∨ c = 2 ^ (8 * nb) - 1)
    (hx : x < 2 ^ (8 * nb)) (hy : y < 2 ^ (8 * nb)) :
    blendv_lane nb c x y = if c ≠ 0 then x else y := by
  by_cases hnb : nb = 0
  · subst hnb
    simp only [Nat.mul_zero, pow_zero] at hx hy
    interval_cases x
    interval_cases y
    simp [blendv_lane]
  rcases hc with rfl | rfl
  · rw [blendv_lane, show (if (0 : Nat) ≠ 0 then x else y) = y by simp]
    calc ∑ j ∈ Finset.range nb, (if 2 ^ 7 ≤ byte 0 j then byte x j else byte y j) * 2 ^ (8 * j)
        = ∑ j ∈ Finset.range nb, byte y j * 2 ^ (8 * j) := by
          apply Finset.sum_congr rfl
          intro j _
          rw [byte_zero]
          norm_num
    _ = y := byte_sum nb y hy
  · have hpos : 2 ^ (8 * nb) - 1 ≠ 0 := by
      have : (2 : Nat) ^ 8 ≤ 2 ^ (8 * nb) := Nat.pow_le_pow_right (by norm_num) (by omega)
      omega
    rw [blendv_lane, if_pos hpos]
    calc ∑ j ∈ Finset.range nb,
          (if 2 ^ 7 ≤ byte (2 ^ (8 * nb) - 1) j then byte x j else byte y j) * 2 ^ (8 * j)
        = ∑ j ∈ Finset.range nb, byte x j * 2 ^ (8 * j) := by
          apply Finset.sum_congr rfl
          intro j hj
          rw [byte_allones nb j (Finset.mem_range.mp hj)]
          norm_num
    _ = x := byte_sum nb x hx

/-- Bit i of the packed mask, read the way the blend immediate reads it. -/
theorem mask_bit_iff (bs : List Bool) (i : Nat) :
    (mask bs >>> i % 2 = 1) ↔ bs.getD i false = true := by
  have h := mask_testBit bs i
  rw [Nat.testBit_to_div_mod] at h
  rw [Nat.shiftRight_eq_div_pow]
  constructor
  · intro hh
    rw [← h]
    exact decide_eq_true hh
  · intro hh
    exact of_decide_eq_true (h.symm ▸ hh)

/-- C7: the select law holds lane-wise for the avx2 runtime-mask kernel on
valid (all-ones or all-zeros) mask lanes, for the compile-time constant
specialization over 4-byte lanes using mask() as immediate blend selector,
and for the 8-byte specialization using the interleaved mask() over 32-bit
half-lanes. -/
theorem avx2_select_law :
    (∀ nbytes : Nat, ∀ cs xs ys : List Nat, ∀ i : Nat,
        (∀ c ∈ cs, c = 0 ∨ c = 2 ^ (8 * nbytes) - 1) →
        (∀ x ∈ xs, x < 2 ^ (8 * nbytes)) → (∀ y ∈ ys, y < 2 ^ (8 * nbytes)) →
        i < cs.length → i < xs.length → i < ys.length →
        (select_avx2 nbytes cs xs ys).getD i 0
          = if cs.getD i 0 ≠ 0 then xs.getD i 0 else ys.getD i 0)
    ∧ (∀ b0 b1 b2 b3 b4 b5 b6 b7 : Bool, ∀ t0 t1 t2 t3 t4 t5 t6 t7 : Nat,
        ∀ f0 f1 f2 f3 f4 f5 f6 f7 : Nat,
        select_const_avx2_epi32 [b0, b1, b2, b3, b4, b5, b6, b7]
            [t0, t1, t2, t3, t4, t5, t6, t7] [f0, f1, f2, f3, f4, f5, f6, f7]
          = [if b0 then t0 else f0, if b1 then t1 else f1, if b2 then t2 else f2,
             if b3 then t3 else f3, if b4 then t4 else f4, if b5 then t5 else f5,
             if b6 then t6 else f6, if b7 then t7 else f7])
    ∧ (∀ b0 b1 b2 b3 : Bool, ∀ t0 t1 t2 t3 f0 f1 f2 f3 : Nat,
        select_const_avx2_epi64 [b0, b1, b2, b3] [t0, t1, t2, t3] [f0, f1, f2, f3]
          = [if b0 then t0 else f0, if b1 then t1 else f1,
             if b2 then t2 else f2, if b3 then t3 else f3]) := by
  refine ⟨?_, ?_, ?_⟩
  · intro nbytes cs
    induction cs with
    | nil => intro xs ys i _ _ _ hic _ _; simp at hic
    | cons c cs ih =>
      intro xs ys i hc hx hy hic hix hiy
      match xs, ys with
      | x :: xs, y :: ys =>
        cases i with
        | zero =>
          simpa [select_avx2] using
            blendv_lane_select nbytes c x y (hc c (by simp)) (hx x (by simp)) (hy y (by simp))
        | succ i =>
          simpa [select_avx2] using
            ih xs ys i (fun a ha => hc a (by simp [ha])) (fun a ha => hx a (by simp [ha]))
              (fun a ha => hy a (by simp [ha]))
              (by simpa using hic) (by simpa using hix) (by simpa using hiy)
  · intro b0 b1 b2 b3 b4 b5 b6 b7 t0 t1 t2 t3 t4 t5 t6 t7 f0 f1 f2 f3 f4 f5 f6 f7
    show blend_epi32 (mask [b0, b1, b2, b3, b4, b5, b6, b7]) _ _ = _
    rw [blend_epi32]
    refine congrArg₂ _ ?_ (congrArg₂ _ ?_ (congrArg₂ _ ?_ (congrArg₂ _ ?_ (congrArg₂ _ ?_
      (congrArg₂ _ ?_ (congrArg₂ _ ?_ (congrArg₂ _ ?_ rfl))))))) <;>
      exact if_congr (mask_bit_iff _ _) rfl rfl
  · intro b0 b1 b2 b3 t0 t1 t2 t3 f0 f1 f2 f3
    cases b0 <;> cases b1 <;> cases b2 <;> cases b3 <;>
      simp [select_const_avx2_epi64, blend_epi32, interleave, mask, mask_helper,
        from64, to64, Nat.mod_add_div]

theorem avx2_select_law_witness :
    ((∀ c ∈ [(0 : Nat), 2 ^ (8 * 4) - 1], c = 0 ∨ c = 2 ^ (8 * 4) - 1)
        ∧ (∀ x ∈ [(7 : Nat), 9], x < 2 ^ (8 * 4)) ∧ (∀ y ∈ [(11 : Nat), 13], y < 2 ^ (8 * 4))
        ∧ 0 < [(0 : Nat), 2 ^ (8 * 4) - 1].length ∧ 0 < [(7 : Nat), 9].length
        ∧ 0 < [(11 : Nat), 13].length)
      ∧ (select_avx2 4 [0, 2 ^ (8 * 4) - 1] [7, 9] [11, 13]).getD 0 0
          = (if [(0 : Nat), 2 ^ (8 * 4) - 1].getD 0 0 ≠ 0
             then [(7 : Nat), 9].getD 0 0 else [(11 : Nat), 13].getD 0 0) :=
  ⟨⟨by decide, by decide, by decide, by decide, by decide, by decide⟩,
    avx2_select_law.1 4 [0, 2 ^ (8 * 4) - 1] [7, 9] [11, 13] 0
      (by decide) (by decide) (by decide) (by decide) (by decide) (by decide)⟩

/-! ### batch_bool store/load round trip (xsimd_batch.hpp)

A batch_bool is the list of its w-bit lane patterns; a valid lane is
all-zeros or all-ones. -/

/-- Modelled from the spec: kernel::store for batch_bool (the generic-tier
kernel behind batch_bool::store_aligned, not under src/) writes each lane's
truth value, bool(lane), to the bool array. -/
def batch_bool_store (reps : List Nat) : List Bool := reps.map fun r => decide (r ≠ 0)

/-- batch_bool::get: stores to an aligned bool buffer and reads index i. -/
def batch_bool_get (reps : List Nat) (i : Nat) : Bool :=
  (batch_bool_store reps).getD i false

/-- The avx2 eq kernel on one lane: cmpeq yields the all-ones pattern on
equality and all-zeros otherwise. -/
def eq_lane (w x y : Nat) : Nat := if x = y then 2 ^ w - 1 else 0

/-- Modelled from the spec: kernel::neq (generic tier, not under src/) is
the bitwise complement of eq, i.e. xor with the all-ones pattern. -/
def neq_lane (w x y : Nat) : Nat := eq_lane w x y ^^^ (2 ^ w - 1)

/-- batch_bool::load_aligned: builds a T buffer holding mem[i] ? 1 : 0 and
compares a zero batch against it with operator!= to produce the mask. -/
def batch_bool_load (w : Nat) (mem : List Bool) : List Nat :=
  (mem.map fun m => if m then (1 : Nat) else 0).map fun bufv => neq_lane w 0 bufv

theorem load_store_lane (w r : Nat) (hr : r = 0 ∨ r = 2 ^ w - 1) :
    neq_lane w 0 (if decide (r ≠ 0) = true then (1 : Nat) else 0) = r := by
  rcases hr with rfl | rfl
  · simp [neq_lane, eq_lane]
  · by_cases hw0 : (2 : Nat) ^ w - 1 = 0
    · simp [hw0, neq_lane, eq_lane]
    · have hd : decide ((2 : Nat) ^ w - 1 ≠ 0) = true := by simp [hw0]
      simp [hd, neq_lane, eq_lane, hw0]

theorem load_store_list (w : Nat) :
    ∀ reps : List Nat, (∀ r ∈ reps, r = 0 ∨ r = 2 ^ w - 1) →
      batch_bool_load w (batch_bool_store reps) = reps := by
  intro reps
  induction reps with
  | nil => intro _; rfl
  | cons r rs ih =>
    intro hv
    simp only [batch_bool_store, batch_bool_load, List.map_cons] at ih ⊢
    rw [load_store_lane w r (hv r (by simp))]
    rw [ih (fun a ha => hv a (by simp [ha]))]

theorem load_normalizes (w : Nat) :
    ∀ mem : List Bool, batch_bool_load w mem = mem.map fun m => if m then 2 ^ w - 1 else 0 := by
  intro mem
  induction mem with
  | nil => rfl
  | cons m ms ih =>
    simp only [batch_bool_load, List.map_cons] at ih ⊢
    rw [ih]
    cases m <;> simp [neq_lane, eq_lane]

/-- C10: for a batch_bool with valid lanes, store then load is the identity
lane-wise, the stored bool array holds get(i) at index i, and loading any
bool array yields valid mask lanes (all-ones where the byte is true,
all-zeros where it is false): the load normalizes through the comparison
against zero. -/
theorem batch_bool_store_load_roundtrip (w : Nat) (reps : List Nat)
    (hv : ∀ r ∈ reps, r = 0 ∨ r = 2 ^ w - 1) (mem : List Bool) (i : Nat)
    (hi : i < reps.length) :
    batch_bool_load w (batch_bool_store reps) = reps
      ∧ (batch_bool_store reps).getD i false = batch_bool_get reps i
      ∧ batch_bool_get reps i = decide (reps.getD i 0 ≠ 0)
      ∧ batch_bool_load w mem = mem.map (fun m => if m then 2 ^ w - 1 else 0) := by
  refine ⟨load_store_list w reps hv, rfl, ?_, load_normalizes w mem⟩
  rw [batch_bool_get, batch_bool_store,
    List.getD_eq_getElem _ _ (by simpa using hi), List.getElem_map,
    List.getD_eq_getElem _ _ hi]

theorem batch_bool_store_load_roundtrip_witness :
    ((∀ r ∈ [(0 : Nat), 2 ^ 32 - 1, 0], r = 0 ∨ r = 2 ^ 32 - 1)
        ∧ 1 < [(0 : Nat), 2 ^ 32 - 1, 0].length)
      ∧ (batch_bool_load 32 (batch_bool_store [0, 2 ^ 32 - 1, 0]) = [0, 2 ^ 32 - 1, 0]
        ∧ (batch_bool_store [0, 2 ^ 32 - 1, 0]).getD 1 false
            = batch_bool_get [0, 2 ^ 32 - 1, 0] 1
        ∧ batch_bool_get [0, 2 ^ 32 - 1, 0] 1 = decide ([(0 : Nat), 2 ^ 32 - 1, 0].getD 1 0 ≠ 0)
        ∧ batch_bool_load 32 [true, false]
            = [true, false].map (fun m => if m then 2 ^ 32 - 1 else 0)) :=
  ⟨⟨by decide, by decide⟩,
    batch_bool_store_load_roundtrip 32 [0, 2 ^ 32 - 1, 0] (by decide) [true, false] 1
      (by decide)⟩

end Xsimd
